import Mathlib

/-!
Verification development for the cached rich-text engine exercised by
`examples/text_cached.rs` (`TextCached` / `FormattedText`).  The engine itself
(fragments, default-style inheritance, layout cache, line-breaking, draw
batching) is not shipped in this repository's `src/` tree — only its caller,
the example, is.  Every definition below is therefore modelled from the
specification's words and checked against the claims.
-/

set_option autoImplicit false

/-- Modelled from the spec: an RGBA color value (the real engine uses `f32`
channels; channel arithmetic is irrelevant to every claim, so channels are
modelled as integers). -/
structure Color where
  r : Int
  g : Int
  b : Int
  a : Int
deriving DecidableEq

/-- Modelled from the spec: a screen-space point (`Point2`). -/
structure Point where
  x : Int
  y : Int
deriving DecidableEq

/-- Modelled from the spec: `FontId` is a handle to a loaded TTF stored inside
the context. -/
abbrev FontId := Nat

/-- Modelled from the spec: `FontId::default()` always exists and maps to the
baked-in DejaVuSerif font. -/
def FontId.default : FontId := 0

/-- Modelled from the spec: a uniform font scale (pixel size). -/
abbrev Scale := Nat

/-- Modelled from the spec: horizontal alignment within the bounds
(`HorizontalAlign`); default alignment is left. -/
inductive HAlign where
  | left
  | center
  | right
deriving DecidableEq

/-- Modelled from the spec: `TextFragment` stores a string and optional style
overrides (color, font, scale); unset fields inherit the `FormattedText`
defaults at layout time. -/
structure TextFragment where
  text : List Char
  color : Option Color
  font_id : Option FontId
  scale : Option Scale
deriving DecidableEq

/-- A fragment with no style overrides, as produced by the plain-string
conversions. -/
def TextFragment.ofText (s : List Char) : TextFragment :=
  ⟨s, none, none, none⟩

/-- Modelled from the spec: a glyph of the resolved logical glyph stream.  It
carries the character, the fragment-resolved effective style, and the advance
width obtained from the glyph atlas. -/
structure Glyph where
  ch : Char
  color : Color
  font : FontId
  scale : Scale
  adv : Nat
deriving DecidableEq

/-- Modelled from the spec: a glyph with its computed placement (pen position
in layout space). -/
structure PlacedGlyph where
  g : Glyph
  x : Nat
  y : Nat
deriving DecidableEq

/-- Modelled from the spec: the invalidatable layout cache contents — per-glyph
placements plus the bounding box of the rendered glyphs. -/
structure TextLayout where
  placements : List PlacedGlyph
  w : Nat
  h : Nat
deriving DecidableEq

/-- Modelled from the spec: the `TextCached` value — an ordered fragment
sequence, default style, optional bounds (either axis may be unbounded,
`none` = infinite), alignment, and the lazily computed layout cache. -/
structure FormattedText where
  fragments : List TextFragment
  default_color : Color
  default_font : FontId
  default_scale : Scale
  bounds_w : Option Nat
  bounds_h : Option Nat
  alignment : HAlign
  layout_cache : Option TextLayout
deriving DecidableEq

/-- Modelled from the spec: a queued draw request — FormattedText snapshot,
screen-space offset, optional override color. -/
structure QueuedRequest where
  snapshot : FormattedText
  offset : Point
  color : Option Color
deriving DecidableEq

/-- Modelled from the spec: the drawing context — registered font handles, the
glyph atlas advance-metric lookup (`none` = font lacks the glyph; such glyphs
degrade to a zero-width invisible placeholder), the pending queued-draw list,
and whether the underlying graphics submission succeeds.  `FontId.default`
is always registered. -/
structure Context where
  registered_fonts : List FontId
  glyph_width : FontId → Scale → Char → Option Nat
  pending : List QueuedRequest
  submission_ok : Bool
  default_registered : FontId.default ∈ registered_fonts

/-- Modelled from the spec: the error taxonomy of the engine. -/
inductive GameError where
  | fontResolutionError
  | indexOutOfBounds
  | batchFlushError
deriving DecidableEq

/-- Modelled from the spec: `get_or_rasterize` never fails — an unrenderable
glyph substitutes a zero-width invisible fallback; newline characters occupy
no horizontal space. -/
def Context.advanceOf (ctx : Context) (f : FontId) (s : Scale) (c : Char) : Nat :=
  if c = '\n' then 0 else (ctx.glyph_width f s c).getD 0

/-- The default draw color (white). -/
def whiteColor : Color := ⟨1, 1, 1, 1⟩

/-- Modelled from the spec: effective font of a fragment — its own override
when set, else the container default. -/
def FormattedText.effFont (t : FormattedText) (f : TextFragment) : FontId :=
  f.font_id.getD t.default_font

/-- Modelled from the spec: effective scale of a fragment. -/
def FormattedText.effScale (t : FormattedText) (f : TextFragment) : Scale :=
  f.scale.getD t.default_scale

/-- Modelled from the spec: effective color of a fragment. -/
def FormattedText.effColor (t : FormattedText) (f : TextFragment) : Color :=
  f.color.getD t.default_color

/-- Modelled from the spec: layout step 1+2 for one fragment — resolve the
effective style by inheriting unset fields from the defaults, and emit one
glyph per character with its atlas advance. -/
def resolveFragment (ctx : Context) (t : FormattedText) (f : TextFragment) :
    List Glyph :=
  f.text.map fun c =>
    ⟨c, t.effColor f, t.effFont f, t.effScale f,
      ctx.advanceOf (t.effFont f) (t.effScale f) c⟩

/-- The logical glyph stream of a fragment list (resolved against the defaults
of `t`). -/
def streamFrags (ctx : Context) (t : FormattedText) (fs : List TextFragment) :
    List Glyph :=
  (fs.map (resolveFragment ctx t)).flatten

/-- Modelled from the spec: layout step 2 — the full logical glyph stream of a
`FormattedText`, fragments walked in order. -/
def glyphStream (ctx : Context) (t : FormattedText) : List Glyph :=
  streamFrags ctx t t.fragments

/-- Rendered width of a glyph run: the sum of its advances. -/
def lineWidth (l : List Glyph) : Nat :=
  (l.map Glyph.adv).sum

/-- A breakable (whitespace) glyph. -/
def isSpaceG (g : Glyph) : Bool :=
  g.ch = ' '

/-- A token consisting of whitespace glyphs only. -/
def isSpaceTok (t : List Glyph) : Bool :=
  t.all isSpaceG

/-- Modelled from the spec: split the glyph stream at hard newline characters;
consecutive newlines are hard breaks yielding empty segments. -/
def splitNl : List Glyph → List (List Glyph)
  | [] => [[]]
  | g :: gs =>
    if g.ch = '\n' then [] :: splitNl gs
    else
      match splitNl gs with
      | [] => [[g]]
      | s :: ss => (g :: s) :: ss

/-- Tokenize a newline-free segment into maximal runs of uniformly
breakable / unbreakable glyphs (words and whitespace runs). -/
def tokens : List Glyph → List (List Glyph)
  | [] => []
  | g :: gs =>
    match tokens gs with
    | [] => [[g]]
    | [] :: ts => [g] :: [] :: ts
    | (h :: t) :: ts =>
      if isSpaceG g = isSpaceG h then (g :: h :: t) :: ts
      else [g] :: (h :: t) :: ts

/-- Greedily cut a word into chunks of maximal width at most `W` (a single
glyph wider than `W` still forms its own chunk). -/
def chunkAux (W : Nat) (acc : List Glyph) (accW : Nat) :
    List Glyph → List (List Glyph)
  | [] => [acc]
  | g :: gs =>
    if accW + g.adv ≤ W then chunkAux W (acc ++ [g]) (accW + g.adv) gs
    else acc :: chunkAux W [g] g.adv gs

/-- Cut a word into width-`W` chunks (empty word yields no chunks). -/
def chunkTok (W : Nat) : List Glyph → List (List Glyph)
  | [] => []
  | g :: gs => chunkAux W [g] g.adv gs

/-- Modelled from the spec: a word exceeding the full bound width is
force-broken; every other token passes through untouched. -/
def preChunk (W : Nat) (ts : List (List Glyph)) : List (List Glyph) :=
  (ts.map fun t =>
    if isSpaceTok t = true ∨ lineWidth t ≤ W then [t] else chunkTok W t).flatten

/-- Modelled from the spec: greedy line filling.  Whitespace runs never cause
a break (trailing whitespace may overflow); a word is placed on the current
line when it fits (or the line is still empty) and otherwise starts a new
line. -/
def wrapTokens (W : Nat) (cur : List Glyph) (curW : Nat) :
    List (List Glyph) → List (List Glyph)
  | [] => [cur]
  | t :: ts =>
    if isSpaceTok t = true ∨ cur = [] ∨ curW + lineWidth t ≤ W then
      wrapTokens W (cur ++ t) (curW + lineWidth t) ts
    else
      cur :: wrapTokens W t (lineWidth t) ts

/-- Modelled from the spec: line-breaking of one hard segment against
`bounds.width` when finite (`none` = no wrapping on that axis). -/
def wrapSegment (mW : Option Nat) (seg : List Glyph) : List (List Glyph) :=
  match mW with
  | none => [seg]
  | some W => wrapTokens W [] 0 (preChunk W (tokens seg))

/-- Modelled from the spec: layout step 3 — hard breaks at newlines, then
word wrapping of each segment. -/
def layoutLines (mW : Option Nat) (stream : List Glyph) :
    List (List Glyph) :=
  ((splitNl stream).map (wrapSegment mW)).flatten

/-- Vertical extent of a line: the tallest glyph scale on it; an empty line
(from a hard break) advances by the default scale. -/
def lineHeight (ds : Scale) (l : List Glyph) : Nat :=
  match l with
  | [] => ds
  | _ => l.foldr (fun g m => max g.scale m) 0

/-- Modelled from the spec: layout step 4 — when `bounds.height` is finite,
lines beyond the height are excluded from the rendered set. -/
def clipLines (ds : Scale) (mH : Option Nat) (y : Nat) :
    List (List Glyph) → List (List Glyph)
  | [] => []
  | l :: ls =>
    match mH with
    | none => l :: clipLines ds none y ls
    | some H =>
      if y + lineHeight ds l ≤ H then
        l :: clipLines ds (some H) (y + lineHeight ds l) ls
      else []

/-- Modelled from the spec: layout step 5 — per-line horizontal offset from
the alignment and the line's rendered width (alignment needs a finite width
bound to align within; otherwise lines start at the origin). -/
def lineStartX (al : HAlign) (mW : Option Nat) (l : List Glyph) : Nat :=
  match mW with
  | none => 0
  | some W =>
    match al with
    | HAlign.left => 0
    | HAlign.center => (W - lineWidth l) / 2
    | HAlign.right => W - lineWidth l

/-- Place the glyphs of one line left to right from pen position `x`. -/
def placeGlyphs (x y : Nat) : List Glyph → List PlacedGlyph
  | [] => []
  | g :: gs => ⟨g, x, y⟩ :: placeGlyphs (x + g.adv) y gs

/-- Place all surviving lines top to bottom. -/
def placeLines (al : HAlign) (mW : Option Nat) (ds : Scale) (y : Nat) :
    List (List Glyph) → List PlacedGlyph
  | [] => []
  | l :: ls =>
    placeGlyphs (lineStartX al mW l) y l ++
      placeLines al mW ds (y + lineHeight ds l) ls

/-- Right edge of the rendered glyph set. -/
def maxRight (ps : List PlacedGlyph) : Nat :=
  ps.foldr (fun p m => max (p.x + p.g.adv) m) 0

/-- Left edge of the rendered glyph set (0 when empty). -/
def minLeft : List PlacedGlyph → Nat
  | [] => 0
  | [p] => p.x
  | p :: ps => min p.x (minLeft ps)

/-- Bottom edge of the rendered glyph set. -/
def maxBottom (ps : List PlacedGlyph) : Nat :=
  ps.foldr (fun p m => max (p.y + p.g.scale) m) 0

/-- Top edge of the rendered glyph set (0 when empty). -/
def minTop : List PlacedGlyph → Nat
  | [] => 0
  | [p] => p.y
  | p :: ps => min p.y (minTop ps)

/-- Modelled from the spec: layout step 6 — tight bounding-box width of the
surviving glyph set. -/
def measureW (ps : List PlacedGlyph) : Nat :=
  maxRight ps - minLeft ps

/-- Modelled from the spec: layout step 6 — tight bounding-box height of the
surviving glyph set. -/
def measureH (ps : List PlacedGlyph) : Nat :=
  maxBottom ps - minTop ps

/-- Modelled from the spec: the full layout pipeline (LayoutEngine) — resolve
the glyph stream, break lines, clip against the height bound, place the
glyphs, and measure the tight bounding box. -/
def computeLayout (ctx : Context) (t : FormattedText) : TextLayout :=
  let stream := glyphStream ctx t
  let ls := clipLines t.default_scale t.bounds_h 0 (layoutLines t.bounds_w stream)
  let ps := placeLines t.alignment t.bounds_w t.default_scale 0 ls
  ⟨ps, measureW ps, measureH ps⟩

/-- Modelled from the spec: `new_empty()` — zero fragments, default style
(white, the baked-in default font, 16px), no bounds, left alignment, empty
cache. -/
def FormattedText.empty : FormattedText :=
  ⟨[], whiteColor, FontId.default, 16, none, none, HAlign.left, none⟩

/-- Does every font handle the fragment references exist in the context? -/
def checkFont (ctx : Context) (f : TextFragment) : Bool :=
  match f.font_id with
  | none => true
  | some fo => fo ∈ ctx.registered_fonts

/-- Modelled from the spec: `TextCached::new` — builds from a single
fragment-like value; fails with `FontResolutionError` when the fragment
references a font handle not registered with the drawing context. -/
def TextCached.new (ctx : Context) (f : TextFragment) :
    Except GameError FormattedText :=
  if checkFont ctx f then
    Except.ok { FormattedText.empty with fragments := [f] }
  else Except.error GameError.fontResolutionError

/-- Modelled from the spec: `add_fragment` — appends the fragment and
invalidates the layout cache; fails only on an unregistered font. -/
def FormattedText.add_fragment (t : FormattedText) (ctx : Context)
    (f : TextFragment) : Except GameError FormattedText :=
  if checkFont ctx f then
    Except.ok { t with fragments := t.fragments ++ [f], layout_cache := none }
  else Except.error GameError.fontResolutionError

/-- Modelled from the spec: `replace_fragment(index, f)` — the index must be
below `fragments.len()`, failing with `IndexOutOfBounds` otherwise; on success
the fragment is replaced and the layout cache invalidated. -/
def FormattedText.replace_fragment (t : FormattedText) (i : Nat)
    (f : TextFragment) : Except GameError FormattedText :=
  if i < t.fragments.length then
    Except.ok { t with fragments := t.fragments.set i f, layout_cache := none }
  else Except.error GameError.indexOutOfBounds

/-- Modelled from the spec: `set_bounds(size, alignment)` — either axis may be
unbounded (`none`); invalidates the cache; a missing alignment means the
default (left) layout. -/
def FormattedText.set_bounds (t : FormattedText) (w h : Option Nat)
    (al : Option HAlign) : FormattedText :=
  { t with
    bounds_w := w
    bounds_h := h
    alignment := al.getD HAlign.left
    layout_cache := none }

/-- Modelled from the spec: `set_font(font, scale)` — sets the default style
used by fragments that did not specify their own font/scale; invalidates the
cache. -/
def FormattedText.set_font (t : FormattedText) (fo : FontId) (sc : Scale) :
    FormattedText :=
  { t with default_font := fo, default_scale := sc, layout_cache := none }

/-- Modelled from the spec: `width(ctx)` — forces layout resolution when the
cache is invalid and returns the bounding-box width of the rendered glyphs. -/
def FormattedText.width (t : FormattedText) (ctx : Context) : Nat :=
  match t.layout_cache with
  | some l => l.w
  | none => (computeLayout ctx t).w

/-- Modelled from the spec: `height(ctx)` — like `width`, for the vertical
extent. -/
def FormattedText.height (t : FormattedText) (ctx : Context) : Nat :=
  match t.layout_cache with
  | some l => l.h
  | none => (computeLayout ctx t).h

/-- Populate the layout cache with the freshly resolved layout (the lazy
memoization step of a measuring or queueing call). -/
def FormattedText.cacheLayout (t : FormattedText) (ctx : Context) :
    FormattedText :=
  { t with layout_cache := some (computeLayout ctx t) }

/-- Modelled from the spec: `queue(ctx, offset, color_override)` — appends a
request to the context-scoped pending-draw list without drawing. -/
def FormattedText.queue (t : FormattedText) (ctx : Context) (offset : Point)
    (color : Option Color) : Context :=
  { ctx with pending := ctx.pending ++ [⟨t, offset, color⟩] }

/-- Modelled from the spec: `DrawParam` — the fields the queued-draw contract
speaks about. -/
structure DrawParam where
  dest : Point
  offset : Point
  rotation : Int
  shear : Point
  color : Color
deriving DecidableEq

/-- The `DrawParam::default()` value. -/
def DrawParam.default : DrawParam :=
  ⟨⟨0, 0⟩, ⟨0, 0⟩, 0, ⟨0, 0⟩, whiteColor⟩

/-- Modelled from the spec: one text block as actually drawn by a flush. -/
structure DrawnBlock where
  snapshot : FormattedText
  pos : Point
  color : Color
deriving DecidableEq

/-- Modelled from the spec: how a flush renders one queued request —
`dest`/`offset` translate in absolute screen space, the per-request override
color takes precedence, and the global draw color is never consulted. -/
def renderRequest (params : DrawParam) (r : QueuedRequest) : DrawnBlock :=
  ⟨r.snapshot,
    ⟨r.offset.x + params.dest.x + params.offset.x,
      r.offset.y + params.dest.y + params.offset.y⟩,
    r.color.getD whiteColor⟩

/-- Modelled from the spec: `draw_queued` (DrawBatcher flush) — renders all
pending requests in queue order, fails with `BatchFlushError` when the
graphics submission fails, and clears the pending list unconditionally after
the flush attempt. -/
def TextCached.draw_queued (ctx : Context) (params : DrawParam) :
    Except GameError (List DrawnBlock) × Context :=
  (if ctx.submission_ok then
      Except.ok (ctx.pending.map (renderRequest params))
    else Except.error GameError.batchFlushError,
    { ctx with pending := [] })

/-- The text blocks actually drawn by a flush result (a failed submission
draws nothing). -/
def drawnBlocks : Except GameError (List DrawnBlock) → List DrawnBlock
  | Except.ok l => l
  | Except.error _ => []

/-- Modelled from the spec: the mutations of the `FormattedText` API whose
cache-invalidation behavior the claims quantify over. -/
inductive Mutation where
  | addFrag : TextFragment → Mutation
  | replaceFrag : Nat → TextFragment → Mutation
  | setBounds : Option Nat → Option Nat → Option HAlign → Mutation
  | setFont : FontId → Scale → Mutation

/-- Apply a mutation; `none` when the operation reported an error. -/
def applyMutation (ctx : Context) (t : FormattedText) :
    Mutation → Option FormattedText
  | Mutation.addFrag f => (t.add_fragment ctx f).toOption
  | Mutation.replaceFrag i f => (t.replace_fragment i f).toOption
  | Mutation.setBounds w h al => some (t.set_bounds w h al)
  | Mutation.setFont fo sc => some (t.set_font fo sc)

/-- A context for concrete evaluations: fonts `0` (the default) and `1` are
registered, every glyph's advance equals its scale, the pending list is empty
and submissions succeed. -/
def exCtx : Context :=
  ⟨[FontId.default, 1], fun _ s _ => some s, [], true, by decide⟩

/-- A plain unstyled fragment used by concrete instances. -/
def fragA : TextFragment := ⟨['A'], none, none, none⟩

/-- `width`/`height` on an invalidated cache resolve the layout afresh. -/
theorem width_height_of_cache_none (ctx : Context) (t : FormattedText)
    (h : t.layout_cache = none) :
    t.width ctx = (computeLayout ctx t).w ∧
    t.height ctx = (computeLayout ctx t).h := by
  unfold FormattedText.width FormattedText.height
  rw [h]
  exact ⟨rfl, rfl⟩

/-- C1: every mutation of a FormattedText (add_fragment, replace_fragment,
set_bounds, set_font) invalidates the layout cache, so a subsequent
`width`/`height` call returns the bounding box of a layout recomputed from
the post-mutation fragment set and bounds — never a measurement derived from
the pre-mutation cache. -/
theorem claim_C1 (ctx : Context) (t : FormattedText) (m : Mutation)
    (t' : FormattedText) (h : applyMutation ctx t m = some t') :
    t'.layout_cache = none ∧
    t'.width ctx = (computeLayout ctx t').w ∧
    t'.height ctx = (computeLayout ctx t').h := by
  have key : t'.layout_cache = none := by
    cases m with
    | addFrag f =>
      simp only [applyMutation, FormattedText.add_fragment] at h
      split at h
      · simp only [Except.toOption, Option.some.injEq] at h
        subst h; rfl
      · simp only [Except.toOption] at h
        cases h
    | replaceFrag i f =>
      simp only [applyMutation, FormattedText.replace_fragment] at h
      split at h
      · simp only [Except.toOption, Option.some.injEq] at h
        subst h; rfl
      · simp only [Except.toOption] at h
        cases h
    | setBounds w hh al =>
      simp only [applyMutation, Option.some.injEq] at h
      subst h; rfl
    | setFont fo sc =>
      simp only [applyMutation, Option.some.injEq] at h
      subst h; rfl
  exact ⟨key, width_height_of_cache_none ctx t' key⟩

/-- Witness for C1 at a concrete mutation. -/
theorem claim_C1_witness :
    (FormattedText.empty.set_font 1 20).width exCtx =
      (computeLayout exCtx (FormattedText.empty.set_font 1 20)).w :=
  (claim_C1 exCtx FormattedText.empty (Mutation.setFont 1 20) _ rfl).2.1

/-- View a (text, offset, override color) triple as a queued request. -/
def toRequest (r : FormattedText × Point × Option Color) : QueuedRequest :=
  ⟨r.1, r.2.1, r.2.2⟩

/-- Queue a list of texts in order on a context. -/
def queueAll (ctx : Context)
    (rs : List (FormattedText × Point × Option Color)) : Context :=
  rs.foldl (fun c r => FormattedText.queue r.1 c r.2.1 r.2.2) ctx

theorem queueAll_pending (ctx : Context)
    (rs : List (FormattedText × Point × Option Color)) :
    (queueAll ctx rs).pending = ctx.pending ++ rs.map toRequest ∧
    (queueAll ctx rs).submission_ok = ctx.submission_ok := by
  induction rs generalizing ctx with
  | nil => simp [queueAll]
  | cons r rs ih =>
    have h := ih (FormattedText.queue r.1 ctx r.2.1 r.2.2)
    simp only [queueAll, List.foldl_cons] at h ⊢
    refine ⟨?_, ?_⟩
    · rw [h.1]
      simp [FormattedText.queue, toRequest]
    · exact h.2

/-- C2: queueing K texts after a flush leaves K pending requests; the next
`draw_queued` draws exactly those K blocks in queue order (when the
submission succeeds), the pending list is empty after the flush attempt
regardless of success or failure, and a second flush with nothing newly
queued draws nothing. -/
theorem claim_C2 (ctx : Context)
    (rs : List (FormattedText × Point × Option Color))
    (params params2 : DrawParam) (h : ctx.pending = []) :
    (ctx.submission_ok = true →
      drawnBlocks (TextCached.draw_queued (queueAll ctx rs) params).1 =
        rs.map (fun r => renderRequest params (toRequest r)) ∧
      (drawnBlocks (TextCached.draw_queued (queueAll ctx rs) params).1).length =
        rs.length) ∧
    (TextCached.draw_queued (queueAll ctx rs) params).2.pending = [] ∧
    drawnBlocks (TextCached.draw_queued
      ((TextCached.draw_queued (queueAll ctx rs) params).2) params2).1 = [] := by
  obtain ⟨hp, hs⟩ := queueAll_pending ctx rs
  refine ⟨fun hok => ?_, rfl, ?_⟩
  · rw [show (TextCached.draw_queued (queueAll ctx rs) params).1 =
        Except.ok ((queueAll ctx rs).pending.map (renderRequest params)) by
      simp [TextCached.draw_queued, hs, hok]]
    simp [drawnBlocks, hp, h]
  · cases hok2 : (queueAll ctx rs).submission_ok <;>
      simp [TextCached.draw_queued, drawnBlocks, hok2]

/-- Witness for C2: one queued block is drawn by the flush. -/
theorem claim_C2_witness :
    drawnBlocks (TextCached.draw_queued
        (queueAll exCtx [(FormattedText.empty, ⟨0, 0⟩, none)])
        DrawParam.default).1 =
      [renderRequest DrawParam.default
        (toRequest (FormattedText.empty, ⟨0, 0⟩, none))] := by
  have h := claim_C2 exCtx [(FormattedText.empty, ⟨0, 0⟩, none)]
    DrawParam.default DrawParam.default rfl
  exact (h.1 rfl).1

/-- C3: `replace_fragment(i, f)` fails with `IndexOutOfBounds` exactly when
`i` is not a valid fragment index; on a valid index it succeeds, replaces
exactly fragment `i` and invalidates the layout cache. -/
theorem claim_C3 (t : FormattedText) (i : Nat) (f : TextFragment) :
    (t.replace_fragment i f = Except.error GameError.indexOutOfBounds ↔
      t.fragments.length ≤ i) ∧
    (i < t.fragments.length →
      t.replace_fragment i f =
        Except.ok { t with fragments := t.fragments.set i f, layout_cache := none }) := by
  unfold FormattedText.replace_fragment
  by_cases hlt : i < t.fragments.length
  · simp [hlt]
  · simp [hlt]
    omega

/-- Witness for C3 at a valid index. -/
theorem claim_C3_witness :
    ({ FormattedText.empty with fragments := [fragA] } : FormattedText).replace_fragment 0 fragA =
      Except.ok { FormattedText.empty with fragments := [fragA].set 0 fragA, layout_cache := none } :=
  (claim_C3 { FormattedText.empty with fragments := [fragA] } 0 fragA).2 (by decide)

/-- A fragment carrying an explicit font override but no scale override. -/
def frag6 : TextFragment := ⟨['A'], none, some 1, none⟩

/-- Counterexample to C6 as stated: `frag6` carries an explicit font override,
yet `set_font 2 20` on the default container (font 0, scale 16) changes its
effective style from `(1, 16)` to `(1, 20)` — the unset scale component still
inherits the new default, so a fragment with an explicit font *or* scale
override does not always resolve to the same effective style. -/
theorem claim_C6_counterexample :
    frag6.font_id.isSome = true ∧
    (FormattedText.effFont (FormattedText.empty.set_font 2 20) frag6,
      FormattedText.effScale (FormattedText.empty.set_font 2 20) frag6) ≠
      (FormattedText.effFont FormattedText.empty frag6,
        FormattedText.effScale FormattedText.empty frag6) := by
  decide

/-- C6 (amended): `set_font` never edits the stored fragments; it changes the
effective font only of fragments whose own font field is unset and the
effective scale only of fragments whose own scale field is unset; a fragment
with both explicit font and scale resolves to the same glyphs before and
after the call. -/
theorem claim_C6 (ctx : Context) (t : FormattedText) (fo : FontId) (sc : Scale)
    (f : TextFragment) :
    ((t.set_font fo sc).fragments = t.fragments) ∧
    (∀ g : FontId, f.font_id = some g →
      FormattedText.effFont (t.set_font fo sc) f = FormattedText.effFont t f) ∧
    (∀ s : Scale, f.scale = some s →
      FormattedText.effScale (t.set_font fo sc) f = FormattedText.effScale t f) ∧
    (f.font_id = none → FormattedText.effFont (t.set_font fo sc) f = fo) ∧
    (f.scale = none → FormattedText.effScale (t.set_font fo sc) f = sc) ∧
    (∀ (g : FontId) (s : Scale), f.font_id = some g → f.scale = some s →
      resolveFragment ctx (t.set_font fo sc) f = resolveFragment ctx t f) := by
  refine ⟨rfl, ?_, ?_, ?_, ?_, ?_⟩
  · intro g hg
    simp [FormattedText.set_font, FormattedText.effFont, hg]
  · intro s hs
    simp [FormattedText.set_font, FormattedText.effScale, hs]
  · intro hg
    simp [FormattedText.set_font, FormattedText.effFont, hg]
  · intro hs
    simp [FormattedText.set_font, FormattedText.effScale, hs]
  · intro g s hg hs
    simp [resolveFragment, FormattedText.set_font, FormattedText.effFont,
      FormattedText.effScale, FormattedText.effColor, hg, hs]

/-- Witness for C6 (amended) at a fragment with both overrides set. -/
theorem claim_C6_witness :
    resolveFragment exCtx (FormattedText.empty.set_font 2 20)
        ⟨['A'], none, some 1, some 5⟩ =
      resolveFragment exCtx FormattedText.empty ⟨['A'], none, some 1, some 5⟩ :=
  (claim_C6 exCtx FormattedText.empty 2 20 ⟨['A'], none, some 1, some 5⟩).2.2.2.2.2
    1 5 rfl rfl

/-- A context holding one pending queued request carrying a color override. -/
def ctxQ : Context :=
  ⟨[FontId.default], fun _ s _ => some s,
    [⟨FormattedText.empty, ⟨3, 4⟩, some ⟨0, 1, 0, 1⟩⟩], true, by decide⟩

/-- C8: `draw_queued` is oblivious to `draw_params.color` (the whole flush
result is unchanged by any value of that field); a request queued with a color
override is drawn with that override; `dest`/`offset` translate the request's
queue position in absolute screen space, unaffected by rotation or shear. -/
theorem claim_C8 (ctx : Context) (params : DrawParam) (c : Color) (rot : Int)
    (sh : Point) (req : QueuedRequest) (cc : Color) :
    (TextCached.draw_queued ctx { params with color := c } =
      TextCached.draw_queued ctx params) ∧
    (req.color = some cc → (renderRequest params req).color = cc) ∧
    ((renderRequest { params with rotation := rot, shear := sh, color := c } req).pos =
      ⟨req.offset.x + params.dest.x + params.offset.x,
        req.offset.y + params.dest.y + params.offset.y⟩) ∧
    (req ∈ ctx.pending → ctx.submission_ok = true →
      renderRequest params req ∈
        drawnBlocks (TextCached.draw_queued ctx params).1) := by
  refine ⟨rfl, fun h => ?_, rfl, fun hmem hok => ?_⟩
  · simp [renderRequest, h]
  · simp [TextCached.draw_queued, drawnBlocks, hok]
    exact ⟨req, hmem, rfl⟩

/-- Witness for C8: the override color is what is drawn. -/
theorem claim_C8_witness :
    (renderRequest DrawParam.default
        ⟨FormattedText.empty, ⟨3, 4⟩, some ⟨0, 1, 0, 1⟩⟩).color = ⟨0, 1, 0, 1⟩ ∧
    renderRequest DrawParam.default
        ⟨FormattedText.empty, ⟨3, 4⟩, some ⟨0, 1, 0, 1⟩⟩ ∈
      drawnBlocks (TextCached.draw_queued ctxQ DrawParam.default).1 :=
  ⟨(claim_C8 ctxQ DrawParam.default whiteColor 0 ⟨0, 0⟩
      ⟨FormattedText.empty, ⟨3, 4⟩, some ⟨0, 1, 0, 1⟩⟩ ⟨0, 1, 0, 1⟩).2.1 rfl,
    (claim_C8 ctxQ DrawParam.default whiteColor 0 ⟨0, 0⟩
      ⟨FormattedText.empty, ⟨3, 4⟩, some ⟨0, 1, 0, 1⟩⟩ ⟨0, 1, 0, 1⟩).2.2.2
      (by decide) rfl⟩

/-- C10: constructing via `new` or appending via `add_fragment` a fragment
that leaves its font unset, or names the always-registered default font
handle, never returns `FontResolutionError`. -/
theorem claim_C10 (ctx : Context) (t : FormattedText) (f : TextFragment)
    (h : f.font_id = none ∨ f.font_id = some FontId.default) :
    (TextCached.new ctx f).isOk = true ∧
    (t.add_fragment ctx f).isOk = true := by
  have hc : checkFont ctx f = true := by
    cases h with
    | inl h => simp [checkFont, h]
    | inr h =>
      simp [checkFont, h]
      exact ctx.default_registered
  constructor <;>
    simp [TextCached.new, FormattedText.add_fragment, hc, Except.isOk,
      Except.toBool]

/-- Witness for C10 at a default-styled fragment. -/
theorem claim_C10_witness :
    (TextCached.new exCtx fragA).isOk = true ∧
    (FormattedText.empty.add_fragment exCtx fragA).isOk = true :=
  claim_C10 exCtx FormattedText.empty fragA (Or.inl rfl)

theorem splitNl_ne_nil (s : List Glyph) : splitNl s ≠ [] := by
  induction s with
  | nil => simp [splitNl]
  | cons g gs ih =>
    simp only [splitNl]
    split
    · simp
    · cases h : splitNl gs with
      | nil => simp
      | cons a as => simp

theorem splitNl_append_nl (a b : List Glyph) (g : Glyph) (hg : g.ch = '\n') :
    splitNl (a ++ g :: b) = splitNl a ++ splitNl b := by
  induction a with
  | nil => simp [splitNl, hg]
  | cons x xs ih =>
    simp only [List.cons_append, splitNl]
    by_cases hx : x.ch = '\n'
    · simp [hx, ih]
    · simp only [if_neg hx]
      simp only [List.append_eq]
      rw [ih]
      cases h : splitNl xs with
      | nil => exact absurd h (splitNl_ne_nil xs)
      | cons s ss => simp

/-- C9: the layout treats a hard newline as an unconditional line break — the
glyphs after it are laid out in fresh lines computed independently of the
lines before it, so a fresh line starts there even when the following word
would have fit on the current line. -/
theorem claim_C9 (mW : Option Nat) (a b : List Glyph) (g : Glyph)
    (hg : g.ch = '\n') :
    layoutLines mW (a ++ g :: b) = layoutLines mW a ++ layoutLines mW b := by
  unfold layoutLines
  rw [splitNl_append_nl a b g hg, List.map_append, List.flatten_append]

/-- Concrete glyphs (1px-wide, scale 1) for witnesses. -/
def gA : Glyph := ⟨'A', whiteColor, 0, 1, 1⟩

def gB : Glyph := ⟨'B', whiteColor, 0, 1, 1⟩

def gC : Glyph := ⟨'C', whiteColor, 0, 1, 1⟩

def gD : Glyph := ⟨'D', whiteColor, 0, 1, 1⟩

def gSp : Glyph := ⟨' ', whiteColor, 0, 1, 1⟩

def gNl : Glyph := ⟨'\n', whiteColor, 0, 1, 0⟩

/-- Witness for C9: the word after the newline would have fit (width 1+1 ≤
100), yet the hard newline still yields the split layout. -/
theorem claim_C9_witness :
    layoutLines (some 100) ([gA] ++ gNl :: [gB]) =
      layoutLines (some 100) [gA] ++ layoutLines (some 100) [gB] :=
  claim_C9 (some 100) [gA] [gB] gNl rfl

theorem tokens_flatten (s : List Glyph) : (tokens s).flatten = s := by
  induction s with
  | nil => rfl
  | cons g gs ih =>
    cases h : tokens gs with
    | nil =>
      rw [h] at ih
      simp only [tokens, h]
      simp at ih
      simp [← ih]
    | cons t ts =>
      rw [h] at ih
      cases t with
      | nil =>
        simp only [tokens, h]
        simp only [List.flatten_cons, List.nil_append] at ih ⊢
        simp [ih]
      | cons x xt =>
        simp only [tokens, h]
        split
        · simp only [List.flatten_cons] at ih ⊢
          simp [ih]
        · simp only [List.flatten_cons] at ih ⊢
          simp [ih]

theorem chunkAux_flatten (W : Nat) (l : List Glyph) :
    ∀ acc accW, (chunkAux W acc accW l).flatten = acc ++ l := by
  induction l with
  | nil => intro acc accW; simp [chunkAux]
  | cons g gs ih =>
    intro acc accW
    simp only [chunkAux]
    split
    · rw [ih]
      simp
    · simp only [List.flatten_cons]
      rw [ih]
      simp

theorem chunkTok_flatten (W : Nat) (t : List Glyph) :
    (chunkTok W t).flatten = t := by
  cases t with
  | nil => rfl
  | cons g gs => simp [chunkTok, chunkAux_flatten]

theorem preChunk_flatten (W : Nat) (ts : List (List Glyph)) :
    ((preChunk W ts).flatten : List Glyph) = ts.flatten := by
  induction ts with
  | nil => rfl
  | cons t ts ih =>
    simp only [preChunk, List.map_cons, List.flatten_cons, List.flatten_append] at ih ⊢
    rw [ih]
    congr 1
    split
    · simp
    · exact chunkTok_flatten W t

theorem wrapTokens_flatten (W : Nat) (ts : List (List Glyph)) :
    ∀ cur curW, (wrapTokens W cur curW ts).flatten = cur ++ ts.flatten := by
  induction ts with
  | nil => intro cur curW; simp [wrapTokens]
  | cons t ts ih =>
    intro cur curW
    simp only [wrapTokens]
    split
    · rw [ih]
      simp
    · simp only [List.flatten_cons]
      rw [ih]

theorem wrapSegment_flatten (mW : Option Nat) (seg : List Glyph) :
    (wrapSegment mW seg).flatten = seg := by
  cases mW with
  | none => simp [wrapSegment]
  | some W =>
    simp [wrapSegment, wrapTokens_flatten, preChunk_flatten, tokens_flatten]

/-- Glyphs surviving hard-break removal: everything except newlines. -/
def dropNl (s : List Glyph) : List Glyph :=
  s.filter fun g => decide (g.ch ≠ '\n')

theorem splitNl_flatten (s : List Glyph) :
    (splitNl s).flatten = dropNl s := by
  induction s with
  | nil => rfl
  | cons g gs ih =>
    simp only [splitNl]
    by_cases hg : g.ch = '\n'
    · simp [hg, ih, dropNl, List.filter_cons]
    · cases h : splitNl gs with
      | nil => exact absurd h (splitNl_ne_nil gs)
      | cons a as =>
        rw [h] at ih
        simp only [List.flatten_cons] at ih
        simp [hg, dropNl, List.filter_cons, ih]

theorem flatten_map_wrapSegment (mW : Option Nat) (L : List (List Glyph)) :
    (((L.map (wrapSegment mW)).flatten).flatten : List Glyph) = L.flatten := by
  induction L with
  | nil => rfl
  | cons seg L ih =>
    simp only [List.map_cons, List.flatten_cons, List.flatten_append]
    rw [ih, wrapSegment_flatten]

theorem layoutLines_flatten (mW : Option Nat) (s : List Glyph) :
    (layoutLines mW s).flatten = dropNl s := by
  unfold layoutLines
  rw [flatten_map_wrapSegment, splitNl_flatten]

theorem wrapTokens_ne_nil (W : Nat) (ts : List (List Glyph)) :
    ∀ cur curW, wrapTokens W cur curW ts ≠ [] := by
  induction ts with
  | nil => intro cur curW; simp [wrapTokens]
  | cons t ts ih =>
    intro cur curW
    simp only [wrapTokens]
    split
    · exact ih _ _
    · simp

theorem wrapSegment_ne_nil (mW : Option Nat) (seg : List Glyph) :
    wrapSegment mW seg ≠ [] := by
  cases mW with
  | none => simp [wrapSegment]
  | some W => exact wrapTokens_ne_nil W _ [] 0

theorem layoutLines_ne_nil (mW : Option Nat) (s : List Glyph) :
    layoutLines mW s ≠ [] := by
  unfold layoutLines
  cases h : splitNl s with
  | nil => exact absurd h (splitNl_ne_nil s)
  | cons a as =>
    simp only [List.map_cons, List.flatten_cons]
    intro hemp
    rcases List.append_eq_nil.mp hemp with ⟨h1, _⟩
    exact wrapSegment_ne_nil mW a h1

theorem wrapTokens_cur_prefix (W : Nat) (ts : List (List Glyph)) :
    ∀ cur curW, ∃ l, l ∈ wrapTokens W cur curW ts ∧ cur <+: l := by
  induction ts with
  | nil =>
    intro cur curW
    exact ⟨cur, by simp [wrapTokens], ⟨[], by simp⟩⟩
  | cons t ts ih =>
    intro cur curW
    simp only [wrapTokens]
    split
    · obtain ⟨l, hl, r, hr⟩ := ih (cur ++ t) (curW + lineWidth t)
      exact ⟨l, hl, ⟨t ++ r, by rw [← hr]; simp⟩⟩
    · exact ⟨cur, List.mem_cons_self _ _, ⟨[], by simp⟩⟩

theorem wrapTokens_tok_infix (W : Nat) (ts : List (List Glyph)) :
    ∀ cur curW t, t ∈ ts → ∃ l, l ∈ wrapTokens W cur curW ts ∧ t <:+: l := by
  induction ts with
  | nil =>
    intro cur curW t ht
    cases ht
  | cons t0 ts ih =>
    intro cur curW t ht
    simp only [wrapTokens]
    rcases List.mem_cons.mp ht with h | h
    · subst h
      split
      · obtain ⟨l, hl, r, hr⟩ := wrapTokens_cur_prefix W ts (cur ++ t) (curW + lineWidth t)
        exact ⟨l, hl, ⟨cur, r, by simp [← hr]⟩⟩
      · obtain ⟨l, hl, r, hr⟩ := wrapTokens_cur_prefix W ts t (lineWidth t)
        exact ⟨l, List.mem_cons_of_mem _ hl, ⟨[], r, by simp [← hr]⟩⟩
    · split
      · obtain ⟨l, hl, hinf⟩ := ih (cur ++ t0) (curW + lineWidth t0) t h
        exact ⟨l, hl, hinf⟩
      · obtain ⟨l, hl, hinf⟩ := ih t0 (lineWidth t0) t h
        exact ⟨l, List.mem_cons_of_mem _ hl, hinf⟩

theorem mem_preChunk_of_fits (W : Nat) (ts : List (List Glyph))
    (t : List Glyph) (ht : t ∈ ts) (hw : lineWidth t ≤ W) :
    t ∈ preChunk W ts := by
  unfold preChunk
  rw [List.mem_flatten]
  refine ⟨[t], ?_, List.mem_cons_self _ _⟩
  have he : (if isSpaceTok t = true ∨ lineWidth t ≤ W then [t] else chunkTok W t) = [t] :=
    if_pos (Or.inr hw)
  exact he ▸ List.mem_map_of_mem _ ht

theorem mem_layoutLines_of_mem_wrapSegment (mW : Option Nat) (s seg : List Glyph)
    (l : List Glyph) (hseg : seg ∈ splitNl s) (hl : l ∈ wrapSegment mW seg) :
    l ∈ layoutLines mW s := by
  unfold layoutLines
  rw [List.mem_flatten]
  exact ⟨wrapSegment mW seg, List.mem_map_of_mem _ hseg, hl⟩

/-- C5: for any finite width bound `W` the line-breaking stage never produces
a zero-line layout; no glyph is lost — the lines' flattening is exactly the
stream minus the hard newlines, so an over-wide word is still present,
force-broken across lines; and breaking never happens mid-word otherwise:
every word token that fits within `W` appears contiguously inside a single
line. -/
theorem claim_C5 (W : Nat) (stream : List Glyph) :
    layoutLines (some W) stream ≠ [] ∧
    (layoutLines (some W) stream).flatten = dropNl stream ∧
    (∀ seg ∈ splitNl stream, ∀ t ∈ tokens seg, isSpaceTok t = false →
      lineWidth t ≤ W → ∃ l, l ∈ layoutLines (some W) stream ∧ t <:+: l) := by
  refine ⟨layoutLines_ne_nil _ _, layoutLines_flatten _ _, ?_⟩
  intro seg hseg t ht hsp hw
  have h1 : t ∈ preChunk W (tokens seg) := mem_preChunk_of_fits W (tokens seg) t ht hw
  obtain ⟨l, hl, hinf⟩ := wrapTokens_tok_infix W (preChunk W (tokens seg)) [] 0 t h1
  exact ⟨l, mem_layoutLines_of_mem_wrapSegment (some W) stream seg l hseg hl, hinf⟩

/-- Witness for C5: stream "AB CD" with bound 10 — the word "CD" fits and
stays contiguous in one line. -/
theorem claim_C5_witness :
    ∃ l, l ∈ layoutLines (some 10) [gA, gB, gSp, gC, gD] ∧ [gC, gD] <:+: l :=
  (claim_C5 10 [gA, gB, gSp, gC, gD]).2.2 [gA, gB, gSp, gC, gD] (by decide)
    [gC, gD] (by decide) (by decide) (by decide)

theorem lineWidth_nil : lineWidth [] = 0 := rfl

theorem lineWidth_cons (g : Glyph) (gs : List Glyph) :
    lineWidth (g :: gs) = g.adv + lineWidth gs := by
  simp [lineWidth]

theorem lineWidth_append (a b : List Glyph) :
    lineWidth (a ++ b) = lineWidth a + lineWidth b := by
  simp [lineWidth]

theorem splitNl_of_noNl (s : List Glyph) (h : ∀ g ∈ s, g.ch ≠ '\n') :
    splitNl s = [s] := by
  induction s with
  | nil => rfl
  | cons g gs ih =>
    simp only [splitNl]
    rw [if_neg (h g (List.mem_cons_self g gs))]
    rw [ih fun x hx => h x (List.mem_cons_of_mem g hx)]

theorem placeGlyphs_append (x y : Nat) (a b : List Glyph) :
    placeGlyphs x y (a ++ b) =
      placeGlyphs x y a ++ placeGlyphs (x + lineWidth a) y b := by
  induction a generalizing x with
  | nil => simp [placeGlyphs, lineWidth]
  | cons g gs ih =>
    simp only [List.cons_append, placeGlyphs, List.append_eq]
    rw [ih]
    rw [lineWidth_cons, ← Nat.add_assoc]

theorem placeGlyphs_length (x y : Nat) (s : List Glyph) :
    (placeGlyphs x y s).length = s.length := by
  induction s generalizing x with
  | nil => rfl
  | cons g gs ih => simp [placeGlyphs, ih]

theorem placeGlyphs_shift (d x y : Nat) (s : List Glyph) :
    placeGlyphs (d + x) y s =
      (placeGlyphs x y s).map fun p => ⟨p.g, d + p.x, p.y⟩ := by
  induction s generalizing x with
  | nil => simp [placeGlyphs]
  | cons g gs ih =>
    simp only [placeGlyphs, List.map_cons]
    rw [Nat.add_assoc]
    rw [ih (x + g.adv)]

theorem maxRight_placeGlyphs (x y : Nat) (s : List Glyph) (hs : s ≠ []) :
    maxRight (placeGlyphs x y s) = x + lineWidth s := by
  induction s generalizing x with
  | nil => cases hs rfl
  | cons g gs ih =>
    cases gs with
    | nil => simp [placeGlyphs, maxRight, lineWidth]
    | cons g2 gs2 =>
      have h2 := ih (x + g.adv) (by simp)
      rw [show maxRight (placeGlyphs x y (g :: g2 :: gs2)) =
          max (x + g.adv) (maxRight (placeGlyphs (x + g.adv) y (g2 :: gs2))) from rfl]
      rw [h2]
      rw [Nat.max_eq_right (Nat.le_add_right _ _)]
      rw [lineWidth_cons g (g2 :: gs2)]
      omega

theorem minLeft_placeGlyphs (y : Nat) (s : List Glyph) :
    minLeft (placeGlyphs 0 y s) = 0 := by
  cases s with
  | nil => rfl
  | cons g gs =>
    simp only [placeGlyphs]
    cases placeGlyphs (0 + g.adv) y gs with
    | nil => rfl
    | cons p ps => simp [minLeft, Nat.zero_min]

theorem measureW_placeGlyphs_zero (y : Nat) (s : List Glyph) :
    measureW (placeGlyphs 0 y s) = lineWidth s := by
  cases s with
  | nil => rfl
  | cons g gs =>
    unfold measureW
    rw [maxRight_placeGlyphs 0 y (g :: gs) (by simp), minLeft_placeGlyphs]
    simp

/-- On an unbounded, newline-free text the layout is a single line placed at
the origin, and the measured width is the total advance of the stream. -/
theorem width_single_line (ctx : Context) (t : FormattedText)
    (hw : t.bounds_w = none) (hh : t.bounds_h = none)
    (hc : t.layout_cache = none)
    (hnl : ∀ g ∈ glyphStream ctx t, g.ch ≠ '\n') :
    t.width ctx = lineWidth (glyphStream ctx t) ∧
    (computeLayout ctx t).placements = placeGlyphs 0 0 (glyphStream ctx t) := by
  have hlines : layoutLines t.bounds_w (glyphStream ctx t) = [glyphStream ctx t] := by
    rw [hw]
    unfold layoutLines
    rw [splitNl_of_noNl _ hnl]
    simp [wrapSegment]
  have hplace : (computeLayout ctx t).placements = placeGlyphs 0 0 (glyphStream ctx t) := by
    simp only [computeLayout]
    rw [hlines, hh]
    simp [clipLines, placeLines, lineStartX, hw]
  refine ⟨?_, hplace⟩
  rw [(width_height_of_cache_none ctx t hc).1]
  rw [show (computeLayout ctx t).w = measureW (computeLayout ctx t).placements from rfl]
  rw [hplace, measureW_placeGlyphs_zero]

theorem resolveFragment_noNl (ctx : Context) (t : FormattedText)
    (f : TextFragment) (h : '\n' ∉ f.text) :
    ∀ g ∈ resolveFragment ctx t f, g.ch ≠ '\n' := by
  intro g hg
  simp only [resolveFragment, List.mem_map] at hg
  obtain ⟨ch, hch, rfl⟩ := hg
  intro hcontra
  exact h (hcontra ▸ hch)

theorem streamFrags_noNl (ctx : Context) (t : FormattedText)
    (fs : List TextFragment) (h : ∀ f ∈ fs, '\n' ∉ f.text) :
    ∀ g ∈ streamFrags ctx t fs, g.ch ≠ '\n' := by
  intro g hg
  simp only [streamFrags, List.mem_flatten, List.mem_map] at hg
  obtain ⟨l, ⟨f, hf, rfl⟩, hgl⟩ := hg
  exact resolveFragment_noNl ctx t f (h f hf) g hgl

theorem streamFrags_append (ctx : Context) (t : FormattedText)
    (a b : List TextFragment) :
    streamFrags ctx t (a ++ b) = streamFrags ctx t a ++ streamFrags ctx t b := by
  simp [streamFrags, List.flatten_append]

/-- A copy of `base` carrying the given fragment list and an invalidated
layout cache (the state right after building a text by mutation). -/
def withFrags (base : FormattedText) (fs : List TextFragment) : FormattedText :=
  { base with fragments := fs, layout_cache := none }

/-- Two texts with identical defaults, bounds, alignment and glyph stream lay
out identically. -/
theorem computeLayout_eq_of (ctx : Context) (t t' : FormattedText)
    (hs : glyphStream ctx t = glyphStream ctx t')
    (h1 : t.default_scale = t'.default_scale) (h2 : t.bounds_w = t'.bounds_w)
    (h3 : t.bounds_h = t'.bounds_h) (h4 : t.alignment = t'.alignment) :
    computeLayout ctx t = computeLayout ctx t' := by
  simp only [computeLayout]
  rw [hs, h1, h2, h3, h4]

theorem streamFrags_uniform (ctx : Context) (t : FormattedText)
    (texts : List (List Char)) (c : Option Color) (fo : Option FontId)
    (sc : Option Scale) :
    streamFrags ctx t (texts.map fun s => ⟨s, c, fo, sc⟩) =
      streamFrags ctx t [⟨texts.flatten, c, fo, sc⟩] := by
  induction texts with
  | nil => rfl
  | cons s ss ih =>
    simp only [List.map_cons, streamFrags, List.flatten_cons] at ih ⊢
    rw [ih]
    simp [resolveFragment, List.map_append, FormattedText.effFont,
      FormattedText.effScale, FormattedText.effColor]

/-- C4: measurement cannot see fragment boundaries — a text of N
uniform-style fragments measures exactly like the single fragment carrying
the concatenated string; and for a two-fragment unbounded single-line text
(colors may differ; color never affects metrics) the composed width is the
sum of the two fragments' standalone widths. -/
theorem claim_C4 (ctx : Context) (base : FormattedText)
    (texts : List (List Char)) (c : Option Color) (fo : Option FontId)
    (sc : Option Scale) (fA fB : TextFragment) :
    ((withFrags base (texts.map fun s => ⟨s, c, fo, sc⟩)).width ctx =
        (withFrags base [⟨texts.flatten, c, fo, sc⟩]).width ctx ∧
      (withFrags base (texts.map fun s => ⟨s, c, fo, sc⟩)).height ctx =
        (withFrags base [⟨texts.flatten, c, fo, sc⟩]).height ctx) ∧
    (base.bounds_w = none → base.bounds_h = none →
      '\n' ∉ fA.text → '\n' ∉ fB.text →
      (withFrags base [fA, fB]).width ctx =
        (withFrags base [fA]).width ctx + (withFrags base [fB]).width ctx) := by
  constructor
  · have hstream :
        glyphStream ctx (withFrags base (texts.map fun s => ⟨s, c, fo, sc⟩)) =
          glyphStream ctx (withFrags base [⟨texts.flatten, c, fo, sc⟩]) :=
      streamFrags_uniform ctx _ texts c fo sc
    have hcl := computeLayout_eq_of ctx
      (withFrags base (texts.map fun s => ⟨s, c, fo, sc⟩))
      (withFrags base [⟨texts.flatten, c, fo, sc⟩]) hstream rfl rfl rfl rfl
    constructor
    · rw [(width_height_of_cache_none ctx _ rfl).1,
        (width_height_of_cache_none ctx _ rfl).1, hcl]
    · rw [(width_height_of_cache_none ctx _ rfl).2,
        (width_height_of_cache_none ctx _ rfl).2, hcl]
  · intro hbw hbh hA hB
    have hnlA : ∀ g ∈ glyphStream ctx (withFrags base [fA]), g.ch ≠ '\n' :=
      streamFrags_noNl ctx _ [fA] (by simpa using hA)
    have hnlB : ∀ g ∈ glyphStream ctx (withFrags base [fB]), g.ch ≠ '\n' :=
      streamFrags_noNl ctx _ [fB] (by simpa using hB)
    have hnlAB : ∀ g ∈ glyphStream ctx (withFrags base [fA, fB]), g.ch ≠ '\n' :=
      streamFrags_noNl ctx _ [fA, fB] (by
        intro f hf
        rcases List.mem_cons.mp hf with h | h
        · exact h ▸ hA
        · rcases List.mem_cons.mp h with h2 | h2
          · exact h2 ▸ hB
          · cases h2)
    rw [(width_single_line ctx (withFrags base [fA, fB]) hbw hbh rfl hnlAB).1,
      (width_single_line ctx (withFrags base [fA]) hbw hbh rfl hnlA).1,
      (width_single_line ctx (withFrags base [fB]) hbw hbh rfl hnlB).1]
    show lineWidth (streamFrags ctx (withFrags base [fA, fB]) ([fA] ++ [fB])) = _
    rw [streamFrags_append]
    rw [lineWidth_append]
    rfl

/-- Witness for C4: the spec's concrete scenario — fragments "A" (red) and
"B" (default) compose to width("A") + width("B") under the default font and
scale. -/
theorem claim_C4_witness :
    (withFrags FormattedText.empty
        [⟨['A'], some ⟨1, 0, 0, 1⟩, none, none⟩, ⟨['B'], none, none, none⟩]).width exCtx =
      (withFrags FormattedText.empty
        [⟨['A'], some ⟨1, 0, 0, 1⟩, none, none⟩]).width exCtx +
      (withFrags FormattedText.empty [⟨['B'], none, none, none⟩]).width exCtx :=
  (claim_C4 exCtx FormattedText.empty [] none none none
      ⟨['A'], some ⟨1, 0, 0, 1⟩, none, none⟩ ⟨['B'], none, none, none⟩).2
    rfl rfl (by decide) (by decide)

/-- Decomposition of an unbounded single-line layout around a middle
fragment: the prefix fragments' placements are exactly the origin placement
of the prefix stream, and the placements after the middle fragment are the
post stream placed at the pen offset `width(pre) + width(mid)` — i.e. the
post stream's relative placement is independent of the middle fragment. -/
theorem layout_decomp (ctx : Context) (base : FormattedText)
    (pre post : List TextFragment) (midf : TextFragment)
    (hbw : base.bounds_w = none) (hbh : base.bounds_h = none)
    (hnl : ∀ f ∈ pre ++ midf :: post, '\n' ∉ f.text) :
    (computeLayout ctx (withFrags base (pre ++ midf :: post))).placements.take
        (streamFrags ctx base pre).length =
      placeGlyphs 0 0 (streamFrags ctx base pre) ∧
    ((computeLayout ctx (withFrags base (pre ++ midf :: post))).placements.drop
        ((streamFrags ctx base pre).length + (resolveFragment ctx base midf).length)).map
        (fun p => (p.x - (lineWidth (streamFrags ctx base pre) +
          lineWidth (resolveFragment ctx base midf)), p.y, p.g)) =
      (placeGlyphs 0 0 (streamFrags ctx base post)).map
        (fun p => (p.x, p.y, p.g)) := by
  have hnlS : ∀ g ∈ glyphStream ctx (withFrags base (pre ++ midf :: post)),
      g.ch ≠ '\n' :=
    streamFrags_noNl ctx (withFrags base (pre ++ midf :: post)) (pre ++ midf :: post) hnl
  have hplace := (width_single_line ctx (withFrags base (pre ++ midf :: post))
    hbw hbh rfl hnlS).2
  have hstream : glyphStream ctx (withFrags base (pre ++ midf :: post)) =
      streamFrags ctx base pre ++
        (resolveFragment ctx base midf ++ streamFrags ctx base post) := by
    show streamFrags ctx (withFrags base (pre ++ midf :: post)) (pre ++ midf :: post) = _
    rw [streamFrags_append]
    rfl
  rw [hplace, hstream, placeGlyphs_append, placeGlyphs_append]
  constructor
  · rw [show (streamFrags ctx base pre).length =
        (placeGlyphs 0 0 (streamFrags ctx base pre)).length from
      (placeGlyphs_length 0 0 _).symm]
    exact List.take_left _ _
  · rw [← List.append_assoc]
    rw [show (streamFrags ctx base pre).length + (resolveFragment ctx base midf).length =
        (placeGlyphs 0 0 (streamFrags ctx base pre) ++
          placeGlyphs (0 + lineWidth (streamFrags ctx base pre)) 0
            (resolveFragment ctx base midf)).length from by
      simp [placeGlyphs_length]]
    rw [List.drop_left]
    rw [show 0 + lineWidth (streamFrags ctx base pre) +
        lineWidth (resolveFragment ctx base midf) =
        lineWidth (streamFrags ctx base pre) +
          lineWidth (resolveFragment ctx base midf) + 0 from by omega]
    rw [placeGlyphs_shift]
    simp [List.map_map, Function.comp, Nat.add_sub_cancel_left]

/-- C7 (amended): in an unbounded-width, newline-free (single-line) layout,
`replace_fragment` at a valid middle index leaves the glyph placements of all
fragments before the index untouched, and shifts the placements of all
fragments after it horizontally by exactly the width difference of the new
fragment — normalizing each side by its own pen offset yields identical
relative placements (same glyphs, same vertical position). -/
theorem claim_C7 (ctx : Context) (base : FormattedText)
    (pre post : List TextFragment) (mid mid' : TextFragment)
    (hbw : base.bounds_w = none) (hbh : base.bounds_h = none)
    (hnl : ∀ f ∈ pre ++ mid :: mid' :: post, '\n' ∉ f.text) :
    (computeLayout ctx (withFrags base (pre ++ mid' :: post))).placements.take
        (streamFrags ctx base pre).length =
      (computeLayout ctx (withFrags base (pre ++ mid :: post))).placements.take
        (streamFrags ctx base pre).length ∧
    ((computeLayout ctx (withFrags base (pre ++ mid' :: post))).placements.drop
        ((streamFrags ctx base pre).length + (resolveFragment ctx base mid').length)).map
        (fun p => (p.x - (lineWidth (streamFrags ctx base pre) +
          lineWidth (resolveFragment ctx base mid')), p.y, p.g)) =
      ((computeLayout ctx (withFrags base (pre ++ mid :: post))).placements.drop
        ((streamFrags ctx base pre).length + (resolveFragment ctx base mid).length)).map
        (fun p => (p.x - (lineWidth (streamFrags ctx base pre) +
          lineWidth (resolveFragment ctx base mid)), p.y, p.g)) := by
  have hnl1 : ∀ f ∈ pre ++ mid :: post, '\n' ∉ f.text := by
    intro f hf
    apply hnl
    simp only [List.mem_append, List.mem_cons] at hf ⊢
    tauto
  have hnl2 : ∀ f ∈ pre ++ mid' :: post, '\n' ∉ f.text := by
    intro f hf
    apply hnl
    simp only [List.mem_append, List.mem_cons] at hf ⊢
    tauto
  obtain ⟨ht1, hd1⟩ := layout_decomp ctx base pre post mid hbw hbh hnl1
  obtain ⟨ht2, hd2⟩ := layout_decomp ctx base pre post mid' hbw hbh hnl2
  exact ⟨ht2.trans ht1.symm, hd2.trans hd1.symm⟩

/-- A three-fragment wrapped text ("AB", "C", "D"; monospace width 1, bound
3): the layout wraps "ABCD" into lines "ABC" / "D". -/
def t7 : FormattedText :=
  ⟨[⟨['A', 'B'], none, none, none⟩, ⟨['C'], none, none, none⟩,
      ⟨['D'], none, none, none⟩],
    whiteColor, 0, 1, some 3, none, HAlign.left, none⟩

/-- `t7` with its middle fragment replaced by the empty fragment. -/
def t7r : FormattedText :=
  ⟨[⟨['A', 'B'], none, none, none⟩, ⟨[], none, none, none⟩,
      ⟨['D'], none, none, none⟩],
    whiteColor, 0, 1, some 3, none, HAlign.left, none⟩

/-- Counterexample to C7 as stated: with a finite width bound the claim fails
for wrapped layouts.  Replacing the middle fragment "C" of `t7` by the empty
fragment moves the *following* fragment's glyph 'D' from placement (0, 1)
(second line) to (2, 0) (first line): its vertical position changes, which no
horizontal shift by the middle fragment's width delta can produce, so the
fragments after the replaced index are not merely shifted. -/
theorem claim_C7_counterexample :
    t7.replace_fragment 1 ⟨[], none, none, none⟩ = Except.ok t7r ∧
    (computeLayout exCtx t7).placements.map (fun p => (p.g.ch, p.x, p.y)) =
      [('A', 0, 0), ('B', 1, 0), ('C', 2, 0), ('D', 0, 1)] ∧
    (computeLayout exCtx t7r).placements.map (fun p => (p.g.ch, p.x, p.y)) =
      [('A', 0, 0), ('B', 1, 0), ('D', 2, 0)] := by
  refine ⟨?_, ?_, ?_⟩ <;> rfl

/-- Witness for C7 (amended) at a concrete replacement "B" to "CC". -/
theorem claim_C7_witness :
    (computeLayout exCtx (withFrags FormattedText.empty
        ([fragA] ++ ⟨['C', 'C'], none, none, none⟩ :: [⟨['D'], none, none, none⟩]))).placements.take
        (streamFrags exCtx FormattedText.empty [fragA]).length =
      (computeLayout exCtx (withFrags FormattedText.empty
        ([fragA] ++ ⟨['B'], none, none, none⟩ :: [⟨['D'], none, none, none⟩]))).placements.take
        (streamFrags exCtx FormattedText.empty [fragA]).length :=
  (claim_C7 exCtx FormattedText.empty [fragA] [⟨['D'], none, none, none⟩]
      ⟨['B'], none, none, none⟩ ⟨['C', 'C'], none, none, none⟩ rfl rfl (by decide)).1
